import Mathlib

/-!
Verification of the windowed correlation / price-change alerting pipeline
(`ws_client.py`).  Python floats are modelled as real numbers; Python
exceptions (ZeroDivisionError, request timeouts, empty result sets) are
modelled with `Option`: `none` is a propagated exception.  The network
collaborators (server time, aggTrades lookups, the two websocket streams)
are modelled as an environment record supplying the values the calls would
return, and the coordinator loop body as a step function on an explicit
state.
-/

namespace WsClient

open Classical

/-- Minimum amount of prices for calculating Pearson correlation
(`COMP_AMOUNT = 20` in the source). -/
def COMP_AMOUNT : ℕ := 20

/-- Border value for determining relation in prices (`BORDER_VALUE = 0.3`). -/
noncomputable def BORDER_VALUE : ℝ := 0.3

/-- Price change horizon in seconds (`PRICE_CHANGE_TIME = 60`). -/
def PRICE_CHANGE_TIME : ℤ := 60

/-- Price change percent threshold (`PRICE_CHANGE_PERCENT = 1`). -/
def PRICE_CHANGE_PERCENT : ℤ := 1

/-- `pearson_correlation(x, y)` from the source, translated line by line.
`sum(x) / len(x)` raises `ZeroDivisionError` on an empty list, modelled as
`none`; likewise for `x_y` (built with `zip`, which truncates to the
shorter list).  `mean_x_x` and `mean_y_y` divide by `len(x_x) = len(x)`
and `len(y_y) = len(y)`, already guarded.  `pow(v, 0.5)` is `Real.sqrt v`
(the argument `mean_x_x - mean_x * mean_x` is a population variance, which
is nonnegative over the reals). -/
noncomputable def pearson_correlation (x y : List ℝ) : Option ℝ :=
  if x.length = 0 then none else
  if y.length = 0 then none else
  let mean_x : ℝ := x.sum / x.length
  let mean_y : ℝ := y.sum / y.length
  let x_x := x.map fun num => num * num
  let y_y := y.map fun num => num * num
  let x_y := List.zipWith (fun a b => a * b) x y
  if x_y.length = 0 then none else
  let mean_x_y : ℝ := x_y.sum / x_y.length
  let mean_x_x : ℝ := x_x.sum / x_x.length
  let mean_y_y : ℝ := y_y.sum / y_y.length
  let x_deviation := Real.sqrt (mean_x_x - mean_x * mean_x)
  let y_deviation := Real.sqrt (mean_y_y - mean_y * mean_y)
  if x_deviation = 0 ∨ y_deviation = 0 then some 0
  else some ((mean_x_y - mean_x * mean_y) / (x_deviation * y_deviation))

/-- Arithmetic mean of a list, `sum(l) / len(l)` (division by the real
cast of the length, as in the source's means). -/
noncomputable def meanL (l : List ℝ) : ℝ := l.sum / l.length

/-- Population variance as the source computes it:
`mean_x_x - mean_x * mean_x`. -/
noncomputable def varL (l : List ℝ) : ℝ :=
  meanL (l.map fun num => num * num) - meanL l * meanL l

/-- Covariance as the source computes it: `mean_x_y - mean_x * mean_y`. -/
noncomputable def covL (x y : List ℝ) : ℝ :=
  meanL (List.zipWith (fun a b => a * b) x y) - meanL x * meanL y

/-- Numeric core of `get_eth_price_change_percents`: the two aggTrades
lookups return `old_price` and `new_price`, and the function returns
`abs(old_price - new_price) * 100 // old_price`.  Python's float floor
division `//` is `Int.floor` of the true quotient. -/
noncomputable def get_eth_price_change_percents (old_price new_price : ℝ) : ℤ :=
  ⌊|old_price - new_price| * 100 / old_price⌋

/-- Truncation toward zero of a real number, following the spec's words
"`|new − old| / old * 100`, truncated toward zero (integer percent)".
Used to compare the code's floor division with the spec's contract. -/
noncomputable def truncTowardZero (t : ℝ) : ℤ :=
  if 0 ≤ t then ⌊t⌋ else -⌊-t⌋

/-- The two instruments whose streams feed the shared channel. -/
inductive Ticker
  | BTC
  | ETH
deriving DecidableEq

/-- Alerts printed by the coordinator loop. -/
inductive Alert
  | priceChange (pct : ℤ)
  | correlation (coeff : ℝ)

/-- State of the coordinator loop that persists across iterations: the two
rolling windows (`btc_prices`, `eth_prices`), `start_time`, and the shared
FIFO channel of pending `(ticker, price)` events. -/
structure CoordState where
  btc_prices : List ℝ
  eth_prices : List ℝ
  start_time : ℤ
  channel : List (Ticker × ℝ)

/-- External collaborators for one loop iteration: the server time returned
by `get_server_time()` at the top of the loop, the result of
`get_eth_price_change_percents()` (`none` models a request timeout or an
empty aggTrades result set, i.e. a raised exception), and the server time
fetched after a correlation alert (line `start_time = get_server_time()`). -/
structure Env where
  current_time : ℤ
  eth_price_change : Option ℤ
  corr_time : ℤ

/-- Result of one successful loop iteration: the new state, the alerts
printed (in order), and the list of inputs passed to
`pearson_correlation` during the iteration. -/
structure StepResult where
  state : CoordState
  alerts : List Alert
  corrCalls : List (List ℝ × List ℝ)

/-- Lines 106–114 of the source: the periodic horizon check.  Returns the
updated `start_time` and the price-change alerts printed, or `none` when
`get_eth_price_change_percents()` raises (the exception propagates). -/
def horizonCheck (env : Env) (s : CoordState) : Option (ℤ × List Alert) :=
  if PRICE_CHANGE_TIME ≤ env.current_time - s.start_time then
    match env.eth_price_change with
    | none => none
    | some pct =>
        some (env.current_time,
          if PRICE_CHANGE_PERCENT < pct then [Alert.priceChange pct] else [])
  else some (s.start_time, [])

/-- Lines 116–137 of the source: the window-full check, else ingestion.
`t1` is the `start_time` after the horizon check.  When both windows have
reached `COMP_AMOUNT`, the correlation of the first `COMP_AMOUNT` prices
of each window is computed, both windows are cleared, and when the
coefficient is `≥ BORDER_VALUE` the horizon timer is reset to a fresh
server time and a correlation alert is printed.  Otherwise one tick is
consumed from the channel (an empty channel means the loop is suspended on
`channel.get()`: the state is unchanged). -/
noncomputable def corrOrIngest (env : Env) (t1 : ℤ) (s : CoordState) : Option StepResult :=
  if COMP_AMOUNT ≤ s.eth_prices.length ∧ COMP_AMOUNT ≤ s.btc_prices.length then
    match pearson_correlation (s.btc_prices.take COMP_AMOUNT)
        (s.eth_prices.take COMP_AMOUNT) with
    | none => none
    | some coeff =>
        if BORDER_VALUE ≤ coeff then
          some ⟨⟨[], [], env.corr_time, s.channel⟩,
            [Alert.correlation coeff],
            [(s.btc_prices.take COMP_AMOUNT, s.eth_prices.take COMP_AMOUNT)]⟩
        else
          some ⟨⟨[], [], t1, s.channel⟩, [],
            [(s.btc_prices.take COMP_AMOUNT, s.eth_prices.take COMP_AMOUNT)]⟩
  else
    match s.channel with
    | [] => some ⟨⟨s.btc_prices, s.eth_prices, t1, []⟩, [], []⟩
    | (Ticker.BTC, price) :: rest =>
        some ⟨⟨s.btc_prices ++ [price], s.eth_prices, t1, rest⟩, [], []⟩
    | (Ticker.ETH, price) :: rest =>
        some ⟨⟨s.btc_prices, s.eth_prices ++ [price], t1, rest⟩, [], []⟩

/-- One iteration of the `while True` loop (lines 104–137): the horizon
check followed by the window-full check / ingestion.  `none` models an
uncaught exception terminating the loop. -/
noncomputable def step (env : Env) (s : CoordState) : Option StepResult :=
  match horizonCheck env s with
  | none => none
  | some (t1, alerts1) =>
      match corrOrIngest env t1 s with
      | none => none
      | some r => some ⟨r.state, alerts1 ++ r.alerts, r.corrCalls⟩

/-- Initial state of the loop: both windows empty, `start_time` the first
server time, channel empty. -/
def initState (t0 : ℤ) : CoordState := ⟨[], [], t0, []⟩

/-- Reachable states of the coordinator: the initial state, a producer
task enqueuing a tick on the shared channel, or one successful loop
iteration. -/
inductive Reachable : CoordState → Prop
  | init (t0 : ℤ) : Reachable (initState t0)
  | enqueue {s : CoordState} (t : Ticker) (p : ℝ) : Reachable s →
      Reachable ⟨s.btc_prices, s.eth_prices, s.start_time, s.channel ++ [(t, p)]⟩
  | step {s : CoordState} {env : Env} {r : StepResult} : Reachable s →
      step env s = some r → Reachable r.state

/-- A window of 20 constant prices. -/
noncomputable def w20 : List ℝ := List.replicate 20 1

/-- A state whose two windows are both full (20 constant prices each). -/
noncomputable def sFull : CoordState := ⟨w20, w20, 0, []⟩

/-- An environment in which the horizon has not elapsed. -/
def envIdle : Env := ⟨0, none, 0⟩

/-- An environment in which the horizon has not elapsed, with a
distinguishable fresh server time. -/
def envC1 : Env := ⟨0, none, 77⟩

/-- The step result for `sFull` under an idle environment. -/
noncomputable def rIdle : StepResult := ⟨⟨[], [], 0, []⟩, [], [(w20, w20)]⟩

/-- A full BTC window holding the prices 1..20. -/
noncomputable def c1btc : List ℝ :=
  [1, 2, 3, 4, 5, 6, 7, 8, 9, 10, 11, 12, 13, 14, 15, 16, 17, 18, 19, 20]

/-- A full ETH window holding the prices 20..1, perfectly anti-correlated
with `c1btc`. -/
noncomputable def c1eth : List ℝ :=
  [20, 19, 18, 17, 16, 15, 14, 13, 12, 11, 10, 9, 8, 7, 6, 5, 4, 3, 2, 1]

/-- A state whose windows are full and perfectly anti-correlated. -/
noncomputable def sAnti : CoordState := ⟨c1btc, c1eth, 0, []⟩

/-- A reachable state in which the ETH window holds 21 prices. -/
noncomputable def c2state : CoordState := ⟨[], List.replicate 21 1, 0, []⟩

/-! Helper lemmas about `pearson_correlation`. -/

/-- Unfolding of `pearson_correlation` on nonempty inputs, in terms of
`meanL`, `varL` and `covL`. -/
lemma pearson_eq_of (x y : List ℝ) (hx : x.length ≠ 0) (hy : y.length ≠ 0) :
    pearson_correlation x y =
      if Real.sqrt (varL x) = 0 ∨ Real.sqrt (varL y) = 0 then some 0
      else some (covL x y / (Real.sqrt (varL x) * Real.sqrt (varL y))) := by
  have hz : (List.zipWith (fun a b => a * b) x y).length ≠ 0 := by
    rw [List.length_zipWith]
    omega
  simp only [pearson_correlation, meanL, varL, covL]
  rw [if_neg hx, if_neg hy, if_neg hz]

/-- Variance of a one-element list is zero. -/
lemma varL_singleton (a : ℝ) : varL [a] = 0 := by
  simp [varL, meanL]

/-- List sum as a sum over `Fin`. -/
lemma list_sum_get (l : List ℝ) : l.sum = ∑ i : Fin l.length, l.get i := by
  conv_lhs => rw [← List.ofFn_get l, List.sum_ofFn]

/-- Sum of a mapped list as a sum over `Fin`. -/
lemma list_map_sum (f : ℝ → ℝ) (l : List ℝ) :
    (l.map f).sum = ∑ i : Fin l.length, f (l.get i) := by
  conv_lhs => rw [← List.ofFn_get l, List.map_ofFn, List.sum_ofFn]
  simp [Function.comp]

/-- Sum of the pointwise product of two equal-length lists as a sum over
`Fin`. -/
lemma list_zipWith_mul_sum (x y : List ℝ) (h : y.length = x.length) :
    (List.zipWith (fun a b => a * b) x y).sum
      = ∑ i : Fin x.length, x.get i * y.get (Fin.cast h.symm i) := by
  have hz : List.zipWith (fun a b => a * b) x y
      = List.ofFn (fun i : Fin x.length => x.get i * y.get (Fin.cast h.symm i)) := by
    apply List.ext_getElem
    · simp [List.length_zipWith, h]
    · intro i h1 h2
      simp [List.getElem_zipWith, List.getElem_ofFn, Fin.cast]
  rw [hz, List.sum_ofFn]

/-- Reindexing a sum over the entries of `y` along a length equation. -/
lemma sum_get_cast (y : List ℝ) (m : ℕ) (h : y.length = m) (f : ℝ → ℝ) :
    ∑ i : Fin y.length, f (y.get i) = ∑ i : Fin m, f (y.get (Fin.cast h.symm i)) := by
  apply Fintype.sum_equiv (finCongr h)
  intro i
  simp [Fin.cast]

/-- Reindexing the plain sum over the entries of `y`. -/
lemma sum_get_cast_id (y : List ℝ) (m : ℕ) (h : y.length = m) :
    ∑ i : Fin y.length, y.get i = ∑ i : Fin m, y.get (Fin.cast h.symm i) :=
  sum_get_cast y m h fun a => a

/-- Reindexing the sum of squares over the entries of `y`. -/
lemma sum_get_cast_sq (y : List ℝ) (m : ℕ) (h : y.length = m) :
    ∑ i : Fin y.length, y.get i ^ 2 = ∑ i : Fin m, y.get (Fin.cast h.symm i) ^ 2 :=
  sum_get_cast y m h fun a => a ^ 2

/-- Centering a squared sum: `∑ (f i − S/n)² = ∑ f i ² − S²/n`. -/
lemma sum_center_sq {n : ℕ} (hn : n ≠ 0) (f : Fin n → ℝ) :
    ∑ i : Fin n, (f i - (∑ j : Fin n, f j) / n) ^ 2
      = ∑ i : Fin n, f i ^ 2 - (∑ j : Fin n, f j) ^ 2 / n := by
  have hc : ((n : ℝ)) ≠ 0 := Nat.cast_ne_zero.mpr hn
  have hexp : ∀ i : Fin n, (f i - (∑ j : Fin n, f j) / n) ^ 2
      = f i ^ 2 - (2 * (∑ j : Fin n, f j) / n) * f i
        + ((∑ j : Fin n, f j) / n) ^ 2 := by
    intro i
    ring
  rw [Finset.sum_congr rfl fun i _ => hexp i, Finset.sum_add_distrib,
    Finset.sum_sub_distrib, ← Finset.mul_sum, Finset.sum_const,
    Finset.card_univ, Fintype.card_fin, nsmul_eq_mul]
  field_simp
  ring

/-- Centering a product sum: `∑ (f i − Sf/n)(g i − Sg/n) = ∑ f g − Sf Sg/n`. -/
lemma sum_center_mul {n : ℕ} (hn : n ≠ 0) (f g : Fin n → ℝ) :
    ∑ i : Fin n, (f i - (∑ j : Fin n, f j) / n) * (g i - (∑ j : Fin n, g j) / n)
      = ∑ i : Fin n, f i * g i - (∑ j : Fin n, f j) * (∑ j : Fin n, g j) / n := by
  have hc : ((n : ℝ)) ≠ 0 := Nat.cast_ne_zero.mpr hn
  have hexp : ∀ i : Fin n, (f i - (∑ j : Fin n, f j) / n) * (g i - (∑ j : Fin n, g j) / n)
      = f i * g i - ((∑ j : Fin n, g j) / n) * f i - ((∑ j : Fin n, f j) / n) * g i
        + ((∑ j : Fin n, f j) / n) * ((∑ j : Fin n, g j) / n) := by
    intro i
    ring
  rw [Finset.sum_congr rfl fun i _ => hexp i, Finset.sum_add_distrib,
    Finset.sum_sub_distrib, Finset.sum_sub_distrib, ← Finset.mul_sum,
    ← Finset.mul_sum, Finset.sum_const, Finset.card_univ, Fintype.card_fin,
    nsmul_eq_mul]
  field_simp
  ring

/-- Cauchy–Schwarz for centered sums. -/
lemma centered_cs {n : ℕ} (hn : n ≠ 0) (f g : Fin n → ℝ) :
    (∑ i : Fin n, f i * g i - (∑ j : Fin n, f j) * (∑ j : Fin n, g j) / n) ^ 2
      ≤ (∑ i : Fin n, f i ^ 2 - (∑ j : Fin n, f j) ^ 2 / n)
        * (∑ i : Fin n, g i ^ 2 - (∑ j : Fin n, g j) ^ 2 / n) := by
  rw [← sum_center_mul hn f g, ← sum_center_sq hn f, ← sum_center_sq hn g]
  exact Finset.sum_mul_sq_le_sq_mul_sq Finset.univ _ _

/-- The variance of a nonempty list, over `Fin`-indexed sums. -/
lemma varL_eq (l : List ℝ) (hl : l.length ≠ 0) :
    varL l = (∑ i : Fin l.length, l.get i ^ 2
      - (∑ i : Fin l.length, l.get i) ^ 2 / l.length) / l.length := by
  have hc : ((l.length : ℝ)) ≠ 0 := Nat.cast_ne_zero.mpr hl
  rw [varL, meanL, meanL, list_map_sum, list_sum_get, List.length_map]
  field_simp
  ring_nf

/-- The covariance of nonempty equal-length lists, over `Fin`-indexed sums. -/
lemma covL_eq (x y : List ℝ) (h : y.length = x.length) (hl : x.length ≠ 0) :
    covL x y = (∑ i : Fin x.length, x.get i * y.get (Fin.cast h.symm i)
      - (∑ i : Fin x.length, x.get i)
        * (∑ i : Fin x.length, y.get (Fin.cast h.symm i)) / x.length) / x.length := by
  have hc : ((x.length : ℝ)) ≠ 0 := Nat.cast_ne_zero.mpr hl
  have hmin : x.length ⊓ y.length = x.length := by omega
  have hcast : ((y.length : ℕ) : ℝ) = ((x.length : ℕ) : ℝ) := by exact_mod_cast h
  rw [covL, meanL, meanL, meanL, list_zipWith_mul_sum x y h, list_sum_get,
    list_sum_get, sum_get_cast_id y x.length h, List.length_zipWith, hmin, hcast]
  field_simp
  ring

/-- Population variance is nonnegative. -/
lemma varL_nonneg (l : List ℝ) : 0 ≤ varL l := by
  rcases Nat.eq_zero_or_pos l.length with h0 | hpos
  · obtain rfl := List.length_eq_zero.mp h0
    simp [varL, meanL]
  · have hl : l.length ≠ 0 := by omega
    rw [varL_eq l hl]
    apply div_nonneg _ (Nat.cast_nonneg _)
    rw [← sum_center_sq hl l.get]
    exact Finset.sum_nonneg fun i _ => sq_nonneg _

/-- Cauchy–Schwarz for the source's covariance and variances. -/
lemma covL_sq_le (x y : List ℝ) (h : y.length = x.length) (hl : x.length ≠ 0) :
    covL x y ^ 2 ≤ varL x * varL y := by
  have hy : y.length ≠ 0 := by omega
  have hc : (0 : ℝ) < x.length := by
    have := Nat.pos_of_ne_zero hl
    exact_mod_cast this
  have hcast : ((y.length : ℕ) : ℝ) = ((x.length : ℕ) : ℝ) := by exact_mod_cast h
  rw [varL_eq x hl, varL_eq y hy, covL_eq x y h hl, sum_get_cast_sq y x.length h,
    sum_get_cast_id y x.length h, hcast]
  have key := centered_cs hl x.get fun i => y.get (Fin.cast h.symm i)
  have hn2 : (0 : ℝ) < (x.length : ℝ) ^ 2 := by positivity
  calc ((∑ i : Fin x.length, x.get i * y.get (Fin.cast h.symm i)
          - (∑ i : Fin x.length, x.get i)
            * (∑ i : Fin x.length, y.get (Fin.cast h.symm i)) / x.length)
        / x.length) ^ 2
      = (∑ i : Fin x.length, x.get i * y.get (Fin.cast h.symm i)
          - (∑ i : Fin x.length, x.get i)
            * (∑ i : Fin x.length, y.get (Fin.cast h.symm i)) / x.length) ^ 2
        / (x.length : ℝ) ^ 2 := by
        ring
    _ ≤ ((∑ i : Fin x.length, x.get i ^ 2 - (∑ i : Fin x.length, x.get i) ^ 2 / x.length)
          * (∑ i : Fin x.length, y.get (Fin.cast h.symm i) ^ 2
            - (∑ i : Fin x.length, y.get (Fin.cast h.symm i)) ^ 2 / x.length))
        / (x.length : ℝ) ^ 2 := (div_le_div_iff_of_pos_right hn2).mpr key
    _ = (∑ i : Fin x.length, x.get i ^ 2 - (∑ i : Fin x.length, x.get i) ^ 2 / x.length)
          / x.length
        * ((∑ i : Fin x.length, y.get (Fin.cast h.symm i) ^ 2
            - (∑ i : Fin x.length, y.get (Fin.cast h.symm i)) ^ 2 / x.length)
          / x.length) := by
        ring

/-- The absolute covariance is at most the product of the deviations. -/
lemma abs_covL_le (x y : List ℝ) (h : y.length = x.length) (hl : x.length ≠ 0) :
    |covL x y| ≤ Real.sqrt (varL x) * Real.sqrt (varL y) := by
  rw [← Real.sqrt_sq_eq_abs, ← Real.sqrt_mul (varL_nonneg x)]
  exact Real.sqrt_le_sqrt (covL_sq_le x y h hl)

/-- On nonempty inputs `pearson_correlation` always returns a value. -/
lemma pearson_isSome (x y : List ℝ) (hx : x.length ≠ 0) (hy : y.length ≠ 0) :
    ∃ r, pearson_correlation x y = some r := by
  rw [pearson_eq_of x y hx hy]
  by_cases h : Real.sqrt (varL x) = 0 ∨ Real.sqrt (varL y) = 0
  · exact ⟨0, if_pos h⟩
  · exact ⟨_, if_neg h⟩

/-! Helper lemmas about the coordinator step. -/

/-- The horizon check crashes exactly on a triggered horizon with a failed
price-change lookup, so a failed lookup makes the whole iteration crash. -/
lemma step_none_of_failure (env : Env) (s : CoordState)
    (ht : PRICE_CHANGE_TIME ≤ env.current_time - s.start_time)
    (hf : env.eth_price_change = none) :
    step env s = none := by
  have hhc : horizonCheck env s = none := by
    unfold horizonCheck
    rw [if_pos ht, hf]
  simp only [step, hhc]

/-- An untriggered horizon check returns the old `start_time` and no
alerts. -/
lemma horizonCheck_idle (env : Env) (s : CoordState)
    (ht : ¬ PRICE_CHANGE_TIME ≤ env.current_time - s.start_time) :
    horizonCheck env s = some (s.start_time, []) := by
  unfold horizonCheck
  rw [if_neg ht]

/-- The horizon check never produces a correlation alert. -/
lemma horizonCheck_alerts (env : Env) (s : CoordState) (t1 : ℤ)
    (alerts1 : List Alert) (h : horizonCheck env s = some (t1, alerts1)) :
    ∀ c : ℝ, Alert.correlation c ∉ alerts1 := by
  intro c hmem
  unfold horizonCheck at h
  by_cases ht : PRICE_CHANGE_TIME ≤ env.current_time - s.start_time
  · rw [if_pos ht] at h
    rcases henv : env.eth_price_change with _ | pct
    · rw [henv] at h
      exact Option.noConfusion h
    · rw [henv] at h
      injection h with h2
      have halerts : alerts1
          = if PRICE_CHANGE_PERCENT < pct then [Alert.priceChange pct] else [] :=
        (congrArg Prod.snd h2).symm
      rw [halerts] at hmem
      by_cases hp : PRICE_CHANGE_PERCENT < pct
      · rw [if_pos hp] at hmem
        simp at hmem
      · rw [if_neg hp] at hmem
        simp at hmem
  · rw [if_neg ht] at h
    injection h with h2
    have halerts : alerts1 = [] := (congrArg Prod.snd h2).symm
    rw [halerts] at hmem
    simp at hmem

/-- Unfolding of the window-full branch of `corrOrIngest`. -/
lemma corrOrIngest_full (env : Env) (t1 : ℤ) (s : CoordState) (c : ℝ)
    (h1 : COMP_AMOUNT ≤ s.eth_prices.length)
    (h2 : COMP_AMOUNT ≤ s.btc_prices.length)
    (hc : pearson_correlation (s.btc_prices.take COMP_AMOUNT)
      (s.eth_prices.take COMP_AMOUNT) = some c) :
    corrOrIngest env t1 s =
      if BORDER_VALUE ≤ c then
        some ⟨⟨[], [], env.corr_time, s.channel⟩, [Alert.correlation c],
          [(s.btc_prices.take COMP_AMOUNT, s.eth_prices.take COMP_AMOUNT)]⟩
      else
        some ⟨⟨[], [], t1, s.channel⟩, [],
          [(s.btc_prices.take COMP_AMOUNT, s.eth_prices.take COMP_AMOUNT)]⟩ := by
  unfold corrOrIngest
  rw [if_pos ⟨h1, h2⟩]
  simp only [hc]

/-- Unfolding of a full-windows iteration of the loop. -/
lemma step_full (env : Env) (s : CoordState) (c : ℝ) (t1 : ℤ)
    (alerts1 : List Alert)
    (h1 : COMP_AMOUNT ≤ s.eth_prices.length)
    (h2 : COMP_AMOUNT ≤ s.btc_prices.length)
    (hhc : horizonCheck env s = some (t1, alerts1))
    (hc : pearson_correlation (s.btc_prices.take COMP_AMOUNT)
      (s.eth_prices.take COMP_AMOUNT) = some c) :
    step env s =
      if BORDER_VALUE ≤ c then
        some ⟨⟨[], [], env.corr_time, s.channel⟩,
          alerts1 ++ [Alert.correlation c],
          [(s.btc_prices.take COMP_AMOUNT, s.eth_prices.take COMP_AMOUNT)]⟩
      else
        some ⟨⟨[], [], t1, s.channel⟩, alerts1 ++ [],
          [(s.btc_prices.take COMP_AMOUNT, s.eth_prices.take COMP_AMOUNT)]⟩ := by
  simp only [step, hhc, corrOrIngest_full env t1 s c h1 h2 hc]
  by_cases hb : BORDER_VALUE ≤ c
  · rw [if_pos hb, if_pos hb]
  · rw [if_neg hb, if_neg hb]

/-- The windows of any successor state: either cleared by a correlation
computation, unchanged (a suspended wait on an empty channel), or a single
price appended to one window under the not-both-full guard. -/
lemma step_state_shape {env : Env} {s : CoordState} {r : StepResult}
    (h : step env s = some r) :
    (r.state.btc_prices = [] ∧ r.state.eth_prices = []) ∨
    (r.state.btc_prices = s.btc_prices ∧ r.state.eth_prices = s.eth_prices) ∨
    (¬(COMP_AMOUNT ≤ s.eth_prices.length ∧ COMP_AMOUNT ≤ s.btc_prices.length) ∧
      ((∃ p, r.state.btc_prices = s.btc_prices ++ [p] ∧
          r.state.eth_prices = s.eth_prices) ∨
       (∃ p, r.state.eth_prices = s.eth_prices ++ [p] ∧
          r.state.btc_prices = s.btc_prices))) := by
  rcases hhc : horizonCheck env s with _ | ⟨t1, a1⟩
  · simp only [step, hhc] at h
    exact Option.noConfusion h
  · by_cases hg : COMP_AMOUNT ≤ s.eth_prices.length ∧ COMP_AMOUNT ≤ s.btc_prices.length
    · have hbt : (s.btc_prices.take COMP_AMOUNT).length ≠ 0 := by
        rw [List.length_take]
        have := hg.2
        unfold COMP_AMOUNT at this ⊢
        omega
      have het : (s.eth_prices.take COMP_AMOUNT).length ≠ 0 := by
        rw [List.length_take]
        have := hg.1
        unfold COMP_AMOUNT at this ⊢
        omega
      obtain ⟨c, hc⟩ := pearson_isSome _ _ hbt het
      rw [step_full env s c t1 a1 hg.1 hg.2 hhc hc] at h
      by_cases hb : BORDER_VALUE ≤ c
      · rw [if_pos hb] at h
        obtain rfl := Option.some.inj h
        exact Or.inl ⟨rfl, rfl⟩
      · rw [if_neg hb] at h
        obtain rfl := Option.some.inj h
        exact Or.inl ⟨rfl, rfl⟩
    · simp only [step, hhc] at h
      unfold corrOrIngest at h
      rw [if_neg hg] at h
      rcases hch : s.channel with _ | ⟨⟨tk, price⟩, rest⟩
      · rw [hch] at h
        injection h with h2
        refine Or.inr (Or.inl ?_)
        rw [← h2]
        exact ⟨rfl, rfl⟩
      · rw [hch] at h
        cases tk
        · injection h with h2
          refine Or.inr (Or.inr ⟨hg, Or.inl ⟨price, ?_, ?_⟩⟩)
          · rw [← h2]
          · rw [← h2]
        · injection h with h2
          refine Or.inr (Or.inr ⟨hg, Or.inr ⟨price, ?_, ?_⟩⟩)
          · rw [← h2]
          · rw [← h2]

/-! Concrete computations used by witnesses and counterexamples. -/

/-- Constant lists have zero variance. -/
lemma varL_replicate (n : ℕ) (c : ℝ) : varL (List.replicate n c) = 0 := by
  rcases Nat.eq_zero_or_pos n with rfl | hpos
  · simp [varL, meanL]
  · have hc : ((n : ℕ) : ℝ) ≠ 0 := Nat.cast_ne_zero.mpr (by omega)
    simp only [varL, meanL, List.map_replicate, List.sum_replicate,
      List.length_replicate, nsmul_eq_mul]
    field_simp

lemma w20_ne_nil : w20.length ≠ 0 := by simp [w20]

lemma w20_take : w20.take COMP_AMOUNT = w20 :=
  List.take_of_length_le (by simp [w20, COMP_AMOUNT])

/-- The correlation of the constant window with itself is the sentinel 0. -/
lemma pearson_w20 : pearson_correlation w20 w20 = some 0 := by
  have hv : varL w20 = 0 := varL_replicate 20 1
  rw [pearson_eq_of w20 w20 w20_ne_nil w20_ne_nil,
    if_pos (Or.inl (by rw [hv, Real.sqrt_zero]))]

lemma pearson_sFull :
    pearson_correlation (sFull.btc_prices.take COMP_AMOUNT)
      (sFull.eth_prices.take COMP_AMOUNT) = some 0 := by
  show pearson_correlation (w20.take COMP_AMOUNT) (w20.take COMP_AMOUNT) = some 0
  rw [w20_take]
  exact pearson_w20

/-- Stepping the constant full-windows state under an idle horizon: the
correlation branch runs, finds the sentinel 0 below the border, clears
both windows and emits nothing. -/
lemma step_sFull_of (e : Env)
    (ht : ¬ PRICE_CHANGE_TIME ≤ e.current_time - sFull.start_time) :
    step e sFull = some rIdle := by
  have hhc := horizonCheck_idle e sFull ht
  have h1 : COMP_AMOUNT ≤ sFull.eth_prices.length := by
    simp [sFull, w20, COMP_AMOUNT]
  have h2 : COMP_AMOUNT ≤ sFull.btc_prices.length := by
    simp [sFull, w20, COMP_AMOUNT]
  rw [step_full e sFull 0 sFull.start_time [] h1 h2 hhc pearson_sFull,
    if_neg (by norm_num [BORDER_VALUE])]
  simp [sFull, rIdle, w20_take]

/-! Affine anti-correlation: `pearson(x, map (c - ·) x) = -1`. -/

lemma map_sub_sum (x : List ℝ) (c : ℝ) :
    (x.map fun a => c - a).sum = x.length * c - x.sum := by
  rw [list_map_sum, list_sum_get, Finset.sum_sub_distrib, Finset.sum_const,
    Finset.card_univ, Fintype.card_fin, nsmul_eq_mul]

lemma meanL_map_sub (x : List ℝ) (c : ℝ) (hn : x.length ≠ 0) :
    meanL (x.map fun a => c - a) = c - meanL x := by
  have hc : ((x.length : ℕ) : ℝ) ≠ 0 := Nat.cast_ne_zero.mpr hn
  simp only [meanL, map_sub_sum, List.length_map]
  field_simp
  ring

lemma meanL_sq_map_sub (x : List ℝ) (c : ℝ) (hn : x.length ≠ 0) :
    meanL ((x.map fun a => c - a).map fun num => num * num)
      = c * c - 2 * c * meanL x + meanL (x.map fun num => num * num) := by
  have hc : ((x.length : ℕ) : ℝ) ≠ 0 := Nat.cast_ne_zero.mpr hn
  have hQ : ((x.map fun a => c - a).map fun num => num * num).sum
      = x.length * (c * c) - 2 * c * x.sum
        + (x.map fun num => num * num).sum := by
    rw [List.map_map]
    have h1 : ((fun num => num * num) ∘ fun a => c - a)
        = fun a => (c - a) * (c - a) := rfl
    rw [h1, list_map_sum, list_map_sum, list_sum_get]
    have hexp : ∀ i : Fin x.length, (c - x.get i) * (c - x.get i)
        = c * c - 2 * c * x.get i + x.get i * x.get i := fun i => by ring
    rw [Finset.sum_congr rfl fun i _ => hexp i, Finset.sum_add_distrib,
      Finset.sum_sub_distrib, Finset.sum_const, Finset.card_univ,
      Fintype.card_fin, nsmul_eq_mul]
    simp only [Finset.mul_sum]
  simp only [meanL, hQ, List.length_map]
  field_simp
  ring

lemma varL_map_sub (x : List ℝ) (c : ℝ) (hn : x.length ≠ 0) :
    varL (x.map fun a => c - a) = varL x := by
  unfold varL
  rw [meanL_sq_map_sub x c hn, meanL_map_sub x c hn]
  ring

lemma covL_map_sub (x : List ℝ) (c : ℝ) (hn : x.length ≠ 0) :
    covL x (x.map fun a => c - a) = -varL x := by
  have hc : ((x.length : ℕ) : ℝ) ≠ 0 := Nat.cast_ne_zero.mpr hn
  have hz : List.zipWith (fun a b => a * b) x (x.map fun a => c - a)
      = x.map fun a => a * (c - a) := by
    rw [List.zipWith_map_right, List.zipWith_same]
  have hP : meanL (x.map fun a => a * (c - a))
      = c * meanL x - meanL (x.map fun num => num * num) := by
    simp only [meanL, List.length_map]
    rw [list_map_sum, list_map_sum, list_sum_get]
    have hexp : ∀ i : Fin x.length, x.get i * (c - x.get i)
        = c * x.get i - x.get i * x.get i := fun i => by ring
    rw [Finset.sum_congr rfl fun i _ => hexp i, Finset.sum_sub_distrib,
      ← Finset.mul_sum]
    field_simp
  unfold covL varL
  rw [hz, hP, meanL_map_sub x c hn]
  ring

/-- Pearson correlation of a list with an affinely reflected copy of
itself is exactly -1. -/
lemma pearson_neg_affine (x : List ℝ) (c : ℝ) (hn : x.length ≠ 0)
    (hx : varL x ≠ 0) :
    pearson_correlation x (x.map fun a => c - a) = some (-1) := by
  have hlen : (x.map fun a => c - a).length ≠ 0 := by
    rw [List.length_map]
    exact hn
  have hvx : 0 < varL x := lt_of_le_of_ne (varL_nonneg x) (Ne.symm hx)
  have hsx : 0 < Real.sqrt (varL x) := Real.sqrt_pos.mpr hvx
  rw [pearson_eq_of x (x.map fun a => c - a) hn hlen, varL_map_sub x c hn,
    covL_map_sub x c hn,
    if_neg (by push_neg; exact ⟨ne_of_gt hsx, ne_of_gt hsx⟩),
    Real.mul_self_sqrt (varL_nonneg x), neg_div, div_self (ne_of_gt hvx)]

/-! The anti-correlated full-windows state. -/

lemma c1eth_eq : c1eth = c1btc.map fun a => 21 - a := by
  norm_num [c1btc, c1eth]

lemma varL_c1btc : varL c1btc ≠ 0 := by
  norm_num [c1btc, varL, meanL]

lemma pearson_c1 : pearson_correlation c1btc c1eth = some (-1) := by
  rw [c1eth_eq]
  exact pearson_neg_affine c1btc 21 (by simp [c1btc]) varL_c1btc

lemma take_c1btc : c1btc.take COMP_AMOUNT = c1btc :=
  List.take_of_length_le (by simp [c1btc, COMP_AMOUNT])

lemma take_c1eth : c1eth.take COMP_AMOUNT = c1eth :=
  List.take_of_length_le (by simp [c1eth, COMP_AMOUNT])

/-- Stepping the anti-correlated full-windows state: the computed
coefficient is -1, below the signed border check, so no correlation alert
is emitted and the horizon timer is not reset. -/
lemma step_sAnti :
    step envC1 sAnti = some ⟨⟨[], [], 0, []⟩, [], [(c1btc, c1eth)]⟩ := by
  have hhc := horizonCheck_idle envC1 sAnti
    (by norm_num [envC1, sAnti, PRICE_CHANGE_TIME])
  have h1 : COMP_AMOUNT ≤ sAnti.eth_prices.length := by
    simp [sAnti, c1eth, COMP_AMOUNT]
  have h2 : COMP_AMOUNT ≤ sAnti.btc_prices.length := by
    simp [sAnti, c1btc, COMP_AMOUNT]
  have hp : pearson_correlation (sAnti.btc_prices.take COMP_AMOUNT)
      (sAnti.eth_prices.take COMP_AMOUNT) = some (-1) := by
    show pearson_correlation (c1btc.take COMP_AMOUNT)
      (c1eth.take COMP_AMOUNT) = some (-1)
    rw [take_c1btc, take_c1eth]
    exact pearson_c1
  rw [step_full envC1 sAnti (-1) sAnti.start_time [] h1 h2 hhc hp,
    if_neg (by norm_num [BORDER_VALUE])]
  simp [sAnti, take_c1btc, take_c1eth]

/-! Reaching a state whose ETH window exceeds the capacity. -/

/-- The producer task can enqueue any number of ETH ticks. -/
lemma reachable_enq (k : ℕ) :
    Reachable ⟨[], [], 0, List.replicate k (Ticker.ETH, (1 : ℝ))⟩ := by
  induction k with
  | zero => exact Reachable.init 0
  | succ n ih =>
      have h := Reachable.enqueue Ticker.ETH (1 : ℝ) ih
      rw [List.replicate_succ']
      exact h

/-- Consuming one ETH tick while the BTC window is empty appends to the
ETH window no matter how long the ETH window already is. -/
lemma step_drain (n : ℕ) (ep : List ℝ) :
    step envIdle
        ⟨[], ep, 0, (Ticker.ETH, (1 : ℝ)) :: List.replicate n (Ticker.ETH, 1)⟩
      = some ⟨⟨[], ep ++ [1], 0, List.replicate n (Ticker.ETH, 1)⟩, [], []⟩ := by
  have hhc := horizonCheck_idle envIdle
    ⟨[], ep, 0, (Ticker.ETH, (1 : ℝ)) :: List.replicate n (Ticker.ETH, 1)⟩
    (by norm_num [envIdle, PRICE_CHANGE_TIME])
  simp only [step, hhc]
  unfold corrOrIngest
  rw [if_neg (by simp [COMP_AMOUNT])]
  rfl

/-- Draining a channel of `k` ETH ticks appends all of them to the ETH
window. -/
lemma reachable_drain (k : ℕ) : ∀ ep : List ℝ,
    Reachable ⟨[], ep, 0, List.replicate k (Ticker.ETH, (1 : ℝ))⟩ →
    Reachable ⟨[], ep ++ List.replicate k (1 : ℝ), 0, []⟩ := by
  induction k with
  | zero =>
      intro ep h
      simpa using h
  | succ n ih =>
      intro ep h
      rw [List.replicate_succ] at h
      have h2 := Reachable.step h (step_drain n ep)
      have h3 := ih (ep ++ [1]) h2
      simpa [List.replicate_succ, List.append_assoc] using h3

/-! Claim theorems. -/

/-- C7: for positive `old_price`, `get_eth_price_change_percents` returns
`|new_price − old_price| / old_price * 100` truncated toward zero to a
whole-number percent. -/
theorem C7_price_change_truncation (old_price new_price : ℝ) (h : 0 < old_price) :
    get_eth_price_change_percents old_price new_price =
      truncTowardZero (|new_price - old_price| / old_price * 100) := by
  have harg : |old_price - new_price| * 100 / old_price
      = |new_price - old_price| / old_price * 100 := by
    rw [abs_sub_comm]
    ring
  have hpos : 0 ≤ |new_price - old_price| / old_price * 100 := by positivity
  rw [get_eth_price_change_percents, truncTowardZero, if_pos hpos, harg]

/-- C7 witness: the truncation contract at `old_price = 100` with
`new_price = 101` (giving `1`) and `new_price = 100.9` (giving `0`,
truncation rather than rounding). -/
theorem C7_price_change_truncation_witness :
    (0 < (100 : ℝ) ∧
      get_eth_price_change_percents 100 101 =
        truncTowardZero (|(101 : ℝ) - 100| / 100 * 100)) ∧
    get_eth_price_change_percents 100 101 = 1 ∧
    get_eth_price_change_percents 100 (100.9) = 0 := by
  refine ⟨⟨by norm_num, C7_price_change_truncation 100 101 (by norm_num)⟩, ?_, ?_⟩
  · have h1 : |(100 : ℝ) - 101| = 1 := by
      rw [abs_of_nonpos (by norm_num)]
      norm_num
    rw [get_eth_price_change_percents, h1]
    norm_num
  · have h2 : |(100 : ℝ) - 100.9| = 0.9 := by
      rw [abs_of_nonpos (by norm_num)]
      norm_num
    rw [get_eth_price_change_percents, h2]
    have h3 : (0.9 : ℝ) * 100 / 100 = 0.9 := by norm_num
    rw [h3]
    rw [Int.floor_eq_zero_iff]
    constructor <;> norm_num

/-- C10: on equal-length inputs of length at least 1, `pearson_correlation`
returns a value (never raises: the mean divisions divide by the nonzero
length and the final division is guarded by the zero-deviation check), and
for length exactly 1 both deviations are zero and the sentinel 0 is
returned. -/
theorem C10_pearson_total (x y : List ℝ) (hlen : x.length = y.length)
    (h1 : 1 ≤ x.length) :
    (∃ r, pearson_correlation x y = some r) ∧
      (x.length = 1 → pearson_correlation x y = some 0) := by
  have hx : x.length ≠ 0 := by omega
  have hy : y.length ≠ 0 := by omega
  rw [pearson_eq_of x y hx hy]
  constructor
  · by_cases h : Real.sqrt (varL x) = 0 ∨ Real.sqrt (varL y) = 0
    · exact ⟨0, if_pos h⟩
    · exact ⟨_, if_neg h⟩
  · intro hone
    obtain ⟨a, rfl⟩ := List.length_eq_one.mp hone
    rw [if_pos (Or.inl (by rw [varL_singleton, Real.sqrt_zero]))]

/-- C5: on equal-length sequences of length at least 2 in which both
sequences have nonzero variance, `pearson_correlation` returns a value `r`
with `-1 ≤ r ≤ 1`. -/
theorem C5_pearson_bounds (x y : List ℝ) (hlen : x.length = y.length)
    (h2 : 2 ≤ x.length) (hx : varL x ≠ 0) (hy : varL y ≠ 0) :
    ∃ r, pearson_correlation x y = some r ∧ -1 ≤ r ∧ r ≤ 1 := by
  have hx0 : x.length ≠ 0 := by omega
  have hy0 : y.length ≠ 0 := by omega
  have hvx : 0 < varL x := lt_of_le_of_ne (varL_nonneg x) (Ne.symm hx)
  have hvy : 0 < varL y := lt_of_le_of_ne (varL_nonneg y) (Ne.symm hy)
  have hsx : 0 < Real.sqrt (varL x) := Real.sqrt_pos.mpr hvx
  have hsy : 0 < Real.sqrt (varL y) := Real.sqrt_pos.mpr hvy
  have hne : ¬(Real.sqrt (varL x) = 0 ∨ Real.sqrt (varL y) = 0) := by
    push_neg
    exact ⟨ne_of_gt hsx, ne_of_gt hsy⟩
  rw [pearson_eq_of x y hx0 hy0, if_neg hne]
  refine ⟨_, rfl, ?_⟩
  have habs : |covL x y / (Real.sqrt (varL x) * Real.sqrt (varL y))| ≤ 1 := by
    rw [abs_div, abs_of_pos (mul_pos hsx hsy)]
    exact (div_le_one (mul_pos hsx hsy)).mpr (abs_covL_le x y hlen.symm hx0)
  exact abs_le.mp habs

/-- C5 witness: `pearson_correlation [1, 2] [2, 4]` returns a coefficient
in `[-1, 1]`. -/
theorem C5_pearson_bounds_witness :
    ∃ r, pearson_correlation [(1 : ℝ), 2] [(2 : ℝ), 4] = some r ∧ -1 ≤ r ∧ r ≤ 1 :=
  C5_pearson_bounds [1, 2] [2, 4] rfl (by norm_num)
    (by norm_num [varL, meanL]) (by norm_num [varL, meanL])

/-- C8: `pearson_correlation` is symmetric in its two arguments on
equal-length sequences of length at least 2. -/
theorem C8_pearson_symm (x y : List ℝ) (hlen : x.length = y.length)
    (h2 : 2 ≤ x.length) :
    pearson_correlation x y = pearson_correlation y x := by
  have hx0 : x.length ≠ 0 := by omega
  have hy0 : y.length ≠ 0 := by omega
  rw [pearson_eq_of x y hx0 hy0, pearson_eq_of y x hy0 hx0]
  have hcov : covL x y = covL y x := by
    rw [covL, covL, List.zipWith_comm_of_comm (fun a b => a * b) mul_comm x y]
    ring
  exact if_congr or_comm rfl (congrArg some (by rw [hcov]; ring))

/-- C8 witness: symmetry at `x = [1, 2]`, `y = [3, 5]`. -/
theorem C8_pearson_symm_witness :
    pearson_correlation [(1 : ℝ), 2] [(3 : ℝ), 5]
      = pearson_correlation [(3 : ℝ), 5] [(1 : ℝ), 2] :=
  C8_pearson_symm [1, 2] [3, 5] rfl (by norm_num)

/-- C9: `pearson_correlation x x = 1` for any `x` of length at least 2
with nonzero variance. -/
theorem C9_pearson_self (x : List ℝ) (h2 : 2 ≤ x.length) (hx : varL x ≠ 0) :
    pearson_correlation x x = some 1 := by
  have hx0 : x.length ≠ 0 := by omega
  have hvx : 0 < varL x := lt_of_le_of_ne (varL_nonneg x) (Ne.symm hx)
  have hsx : 0 < Real.sqrt (varL x) := Real.sqrt_pos.mpr hvx
  have hne : ¬(Real.sqrt (varL x) = 0 ∨ Real.sqrt (varL x) = 0) := by
    push_neg
    exact ⟨ne_of_gt hsx, ne_of_gt hsx⟩
  rw [pearson_eq_of x x hx0 hx0, if_neg hne]
  have hcov : covL x x = varL x := by
    rw [covL, varL, List.zipWith_same]
  rw [hcov, Real.mul_self_sqrt (varL_nonneg x), div_self (ne_of_gt hvx)]

/-- C9 witness: `pearson_correlation [0, 1] [0, 1] = 1`. -/
theorem C9_pearson_self_witness :
    pearson_correlation [(0 : ℝ), 1] [(0 : ℝ), 1] = some 1 :=
  C9_pearson_self [0, 1] (by norm_num) (by norm_num [varL, meanL])

/-- C10 witness: `pearson_correlation [5] [7]` returns the sentinel 0 and
does not raise. -/
theorem C10_pearson_total_witness :
    (∃ r, pearson_correlation [(5 : ℝ)] [(7 : ℝ)] = some r) ∧
      (([(5 : ℝ)] : List ℝ).length = 1 →
        pearson_correlation [(5 : ℝ)] [(7 : ℝ)] = some 0) :=
  C10_pearson_total [5] [7] rfl (by norm_num)

/-- C6 (amended): on equal-length sequences of length at least 2, if at
least one sequence has zero variance then `pearson_correlation` returns
the sentinel 0 and does not raise.  (The converse direction of the claim
fails: the coefficient can also be exactly 0 for two sequences that both
have nonzero variance, see the counterexample.) -/
theorem C6_zero_variance_sentinel (x y : List ℝ) (hlen : x.length = y.length)
    (h2 : 2 ≤ x.length) (hvar : varL x = 0 ∨ varL y = 0) :
    pearson_correlation x y = some 0 := by
  have hx0 : x.length ≠ 0 := by omega
  have hy0 : y.length ≠ 0 := by omega
  rw [pearson_eq_of x y hx0 hy0]
  refine if_pos ?_
  rcases hvar with h | h
  · exact Or.inl (by rw [h, Real.sqrt_zero])
  · exact Or.inr (by rw [h, Real.sqrt_zero])

/-- C6 witness: `x = [1,1,1,1]`, `y = [1,2,3,4]` returns the sentinel 0,
not an error. -/
theorem C6_zero_variance_sentinel_witness :
    pearson_correlation [(1 : ℝ), 1, 1, 1] [(1 : ℝ), 2, 3, 4] = some 0 :=
  C6_zero_variance_sentinel [1, 1, 1, 1] [1, 2, 3, 4] rfl (by norm_num)
    (Or.inl (by norm_num [varL, meanL]))

/-- C6 counterexample: `pearson_correlation` also returns 0 on two
sequences that both have nonzero variance, so the sentinel is not returned
"exactly when" a sequence has zero variance. -/
theorem C6_zero_coeff_nonzero_variance :
    pearson_correlation [(1 : ℝ), 0, -1, 0] [(0 : ℝ), 1, 0, -1] = some 0 ∧
      varL [(1 : ℝ), 0, -1, 0] ≠ 0 ∧ varL [(0 : ℝ), 1, 0, -1] ≠ 0 := by
  have hx : varL [(1 : ℝ), 0, -1, 0] = 1 / 2 := by norm_num [varL, meanL]
  have hy : varL [(0 : ℝ), 1, 0, -1] = 1 / 2 := by norm_num [varL, meanL]
  have hcov : covL [(1 : ℝ), 0, -1, 0] [(0 : ℝ), 1, 0, -1] = 0 := by
    norm_num [covL, meanL, List.zipWith]
  have hsx : Real.sqrt (varL [(1 : ℝ), 0, -1, 0]) ≠ 0 := by
    rw [hx]
    exact ne_of_gt (Real.sqrt_pos.mpr (by norm_num))
  have hsy : Real.sqrt (varL [(0 : ℝ), 1, 0, -1]) ≠ 0 := by
    rw [hy]
    exact ne_of_gt (Real.sqrt_pos.mpr (by norm_num))
  refine ⟨?_, by rw [hx]; norm_num, by rw [hy]; norm_num⟩
  rw [pearson_eq_of _ _ (by simp) (by simp),
    if_neg (by push_neg; exact ⟨hsx, hsy⟩), hcov, zero_div]

/-- C4: in every iteration whose state has both windows at capacity, the
correlation engine is invoked exactly once, on the first `COMP_AMOUNT`
prices of each window; both windows are cleared regardless of the computed
value; and no tick is consumed from the channel. -/
theorem C4_window_full_step (env : Env) (s : CoordState) (r : StepResult)
    (h1 : COMP_AMOUNT ≤ s.eth_prices.length)
    (h2 : COMP_AMOUNT ≤ s.btc_prices.length)
    (hstep : step env s = some r) :
    r.corrCalls
        = [(s.btc_prices.take COMP_AMOUNT, s.eth_prices.take COMP_AMOUNT)] ∧
      r.state.btc_prices = [] ∧ r.state.eth_prices = [] ∧
      r.state.channel = s.channel := by
  rcases hhc : horizonCheck env s with _ | ⟨t1, a1⟩
  · simp only [step, hhc] at hstep
    exact Option.noConfusion hstep
  · have hbt : (s.btc_prices.take COMP_AMOUNT).length ≠ 0 := by
      rw [List.length_take]
      unfold COMP_AMOUNT at h2 ⊢
      omega
    have het : (s.eth_prices.take COMP_AMOUNT).length ≠ 0 := by
      rw [List.length_take]
      unfold COMP_AMOUNT at h1 ⊢
      omega
    obtain ⟨c, hc⟩ := pearson_isSome _ _ hbt het
    rw [step_full env s c t1 a1 h1 h2 hhc hc] at hstep
    by_cases hb : BORDER_VALUE ≤ c
    · rw [if_pos hb] at hstep
      obtain rfl := Option.some.inj hstep
      exact ⟨rfl, rfl, rfl, rfl⟩
    · rw [if_neg hb] at hstep
      obtain rfl := Option.some.inj hstep
      exact ⟨rfl, rfl, rfl, rfl⟩

/-- C4 witness: the constant full-windows state steps to cleared windows
with one correlation call and an untouched channel. -/
theorem C4_window_full_step_witness :
    rIdle.corrCalls
        = [(sFull.btc_prices.take COMP_AMOUNT, sFull.eth_prices.take COMP_AMOUNT)] ∧
      rIdle.state.btc_prices = [] ∧ rIdle.state.eth_prices = [] ∧
      rIdle.state.channel = sFull.channel :=
  C4_window_full_step envIdle sFull rIdle
    (by simp [sFull, w20, COMP_AMOUNT]) (by simp [sFull, w20, COMP_AMOUNT])
    (step_sFull_of envIdle (by norm_num [envIdle, sFull, PRICE_CHANGE_TIME]))

/-- C1 (amended): in a window-full iteration, a correlation alert is
emitted and the horizon timer reset if and only if the signed coefficient
is at least `BORDER_VALUE` (the code compares `coeff >= BORDER_VALUE`
without taking the absolute value, so a strongly negative coefficient such
as -0.9 does not trigger an alert). -/
theorem C1_corr_alert_signed (env : Env) (s : CoordState) (r : StepResult)
    (c : ℝ)
    (h1 : COMP_AMOUNT ≤ s.eth_prices.length)
    (h2 : COMP_AMOUNT ≤ s.btc_prices.length)
    (hstep : step env s = some r)
    (hc : pearson_correlation (s.btc_prices.take COMP_AMOUNT)
      (s.eth_prices.take COMP_AMOUNT) = some c) :
    ((Alert.correlation c ∈ r.alerts ∧ r.state.start_time = env.corr_time)
      ↔ BORDER_VALUE ≤ c) := by
  rcases hhc : horizonCheck env s with _ | ⟨t1, a1⟩
  · simp only [step, hhc] at hstep
    exact Option.noConfusion hstep
  · have hal := horizonCheck_alerts env s t1 a1 hhc
    rw [step_full env s c t1 a1 h1 h2 hhc hc] at hstep
    by_cases hb : BORDER_VALUE ≤ c
    · rw [if_pos hb] at hstep
      obtain rfl := Option.some.inj hstep
      constructor
      · intro _
        exact hb
      · intro _
        refine ⟨?_, rfl⟩
        simp
    · rw [if_neg hb] at hstep
      obtain rfl := Option.some.inj hstep
      constructor
      · intro hmem
        exfalso
        have hin := hmem.1
        rw [List.append_nil] at hin
        exact hal c hin
      · intro hbc
        exact absurd hbc hb

/-- C1 witness: for the constant full-windows state the coefficient is the
sentinel 0, `0.3 ≤ 0` fails, and accordingly no alert is emitted and the
timer keeps its old value. -/
theorem C1_corr_alert_signed_witness :
    ((Alert.correlation 0 ∈ rIdle.alerts
        ∧ rIdle.state.start_time = envC1.corr_time)
      ↔ BORDER_VALUE ≤ (0 : ℝ)) :=
  C1_corr_alert_signed envC1 sFull rIdle 0
    (by simp [sFull, w20, COMP_AMOUNT]) (by simp [sFull, w20, COMP_AMOUNT])
    (step_sFull_of envC1 (by norm_num [envC1, sFull, PRICE_CHANGE_TIME]))
    pearson_sFull

/-- C1 counterexample: with perfectly anti-correlated full windows the
coefficient is -1, whose absolute value exceeds the border, yet the step
emits no alert at all and leaves the timer at 0 (not `envC1.corr_time =
77`): the claimed absolute-value trigger is false on the code, which tests
the signed coefficient. -/
theorem C1_neg_coeff_no_alert :
    step envC1 sAnti = some ⟨⟨[], [], 0, []⟩, [], [(c1btc, c1eth)]⟩ ∧
      pearson_correlation c1btc c1eth = some (-1) ∧
      BORDER_VALUE ≤ |(-1 : ℝ)| := by
  refine ⟨step_sAnti, pearson_c1, ?_⟩
  rw [abs_neg, abs_one]
  norm_num [BORDER_VALUE]

/-- C2 (amended): at every reachable state at least one of the two windows
holds at most `COMP_AMOUNT` prices.  (The claimed bound on both windows is
false: one window can grow past the capacity while the other is below it,
see the counterexample.) -/
theorem C2_min_window_bounded (s : CoordState) (h : Reachable s) :
    s.btc_prices.length ≤ COMP_AMOUNT ∨ s.eth_prices.length ≤ COMP_AMOUNT := by
  induction h with
  | init t0 =>
      exact Or.inl (by simp [initState])
  | enqueue t p hs ih => exact ih
  | step hs hstep ih =>
      rcases step_state_shape hstep with ⟨hb, he⟩ | ⟨hb, he⟩ | ⟨hg, hca⟩
      · exact Or.inl (by rw [hb]; simp)
      · rw [hb, he]
        exact ih
      · unfold COMP_AMOUNT at hg ⊢
        rcases hca with ⟨p, hb, he⟩ | ⟨p, he, hb⟩
        · rw [hb, he, List.length_append, List.length_singleton]
          omega
        · rw [hb, he, List.length_append, List.length_singleton]
          omega

/-- C2 witness: at the initial state both windows are within capacity. -/
theorem C2_min_window_bounded_witness :
    (initState 0).btc_prices.length ≤ COMP_AMOUNT
      ∨ (initState 0).eth_prices.length ≤ COMP_AMOUNT :=
  C2_min_window_bounded (initState 0) (Reachable.init 0)

/-- C2 counterexample: after 21 ETH ticks arrive while no BTC tick does,
the coordinator reaches a state whose ETH window holds 21 > 20 prices, so
the windows are not bounded by the capacity at every reachable state. -/
theorem C2_window_exceeds_capacity :
    Reachable c2state ∧ ¬ c2state.eth_prices.length ≤ COMP_AMOUNT := by
  constructor
  · have h := reachable_drain 21 [] (reachable_enq 21)
    simpa [c2state] using h
  · simp [c2state, COMP_AMOUNT]

/-- C3 (amended): a reference-service failure (timeout or empty result)
during a triggered periodic evaluation makes the whole loop iteration
fail: the exception is not caught, so the coordinator loop terminates
rather than skipping the cycle. -/
theorem C3_failure_crashes_loop (env : Env) (s : CoordState)
    (ht : PRICE_CHANGE_TIME ≤ env.current_time - s.start_time)
    (hf : env.eth_price_change = none) :
    step env s = none :=
  step_none_of_failure env s ht hf

/-- C3 witness: a failed lookup at server time 60 crashes the iteration
from the initial state. -/
theorem C3_failure_crashes_loop_witness :
    PRICE_CHANGE_TIME ≤ (60 : ℤ) - (initState 0).start_time ∧
      step ⟨60, none, 0⟩ (initState 0) = none :=
  ⟨by norm_num [initState, PRICE_CHANGE_TIME],
    C3_failure_crashes_loop ⟨60, none, 0⟩ (initState 0)
      (by norm_num [initState, PRICE_CHANGE_TIME]) rfl⟩

/-- C3 counterexample: the claim that a failed reference-service cycle is
skipped and the loop continues is false: from the initial state, a cycle
whose price-change lookup fails has no successor iteration at all. -/
theorem C3_failed_cycle_not_skipped :
    ¬ ∃ r : StepResult, step ⟨60, none, 5⟩ (initState 0) = some r := by
  intro h
  obtain ⟨r, hr⟩ := h
  rw [step_none_of_failure ⟨60, none, 5⟩ (initState 0)
    (by norm_num [initState, PRICE_CHANGE_TIME]) rfl] at hr
  exact Option.noConfusion hr

end WsClient
